import Mathlib

/-!
Verification development for the rayder workflow runner (src/main.go).

The Go program is shallowly embedded as follows:
* machine strings are `String` / `List Char`;
* each child process's exit status is an oracle `exch : List Char → Bool`
  mapping the fully rendered command line to `true` (exit 0) or `false`;
* the interleaving freedom of the single outstanding parallel goroutine
  (the `moduleSyncChan` channel has capacity 1, so at most one parallel
  task is ever in flight) is a list of booleans `sched`: before each loop
  iteration the bit says whether the in-flight parallel task finishes at
  that point; acquiring the channel slot and the final `wg.Wait()` force
  the in-flight task to finish regardless of the schedule.
-/

namespace Rayder

/-- The character `U+007B` (opening curly brace). -/
def lbrace : Char := Char.ofNat 123

/-- The character `U+007D` (closing curly brace). -/
def rbrace : Char := Char.ofNat 125

/-- `type Task struct` from src/main.go lines 18-24. -/
structure Task where
  name : String
  cmds : List String
  silent : Bool
  parallel : Bool
  required : List String
deriving DecidableEq

/-- `type Config struct` from src/main.go lines 26-30.  The Go
`map[string]string` of variables is modelled as an association list with
first-match lookup semantics. -/
structure Config where
  vars : List (String × String)
  usage : String
  tasks : List Task
deriving DecidableEq

/-- Scanning core of Go `strings.ReplaceAll` on character lists.  With the
skip counter at `0`, the head position is tested for an occurrence of
`pat`; on a match, `repl` is emitted and the `pat.length` matched
characters are consumed (one directly, the remaining `pat.length - 1` via
the skip counter), giving the leftmost non-overlapping replacement
discipline of `strings.Replace(s, old, new, -1)`.  Every call site in the
program builds the pattern as a brace-wrapped token, so `pat` is never
empty. -/
def raGo (pat repl : List Char) : Nat → List Char → List Char
  | _ + 1, [] => []
  | n + 1, _ :: cs => raGo pat repl n cs
  | 0, [] => []
  | 0, c :: cs =>
    if pat.isPrefixOf (c :: cs) then repl ++ raGo pat repl (pat.length - 1) cs
    else c :: raGo pat repl 0 cs

/-- Go `strings.ReplaceAll(l, pat, repl)` on character lists. -/
def replaceAll (pat repl l : List Char) : List Char :=
  raGo pat repl 0 l

/-- The pattern `fmt.Sprintf("\x7b\x7b%s\x7d\x7d", key)` built by
`replacePlaceholders` (src/main.go line 255). -/
def tokenOf (k : List Char) : List Char :=
  lbrace :: lbrace :: (k ++ [rbrace, rbrace])

/-- `replacePlaceholders` from src/main.go lines 253-259: fold
`strings.ReplaceAll` over the variable map.  The Go `range` over the map
visits each entry once in an unspecified order; the model fixes the
association-list order (claim C10 concerns this choice). -/
def replacePlaceholders (input : List Char) (vars : List (String × String)) : List Char :=
  vars.foldl (fun acc kv => replaceAll (tokenOf kv.1.data) kv.2.data acc) input

/-- `executeCommand` from src/main.go lines 234-251: render the command
with `replacePlaceholders`, run it through `sh -c`, and report whether the
child exited zero (`true` = no error).  The child's exit status is the
oracle `exch` applied to the rendered command; the `silent` flag only
redirects output streams and does not affect the result. -/
def executeCommand (exch : List Char → Bool) (cmdStr : String) (silent : Bool)
    (vars : List (String × String)) : Bool :=
  let _ := silent
  exch (replacePlaceholders cmdStr.data vars)

/-- The command loop of `runTask` (src/main.go lines 217-224): run the
commands in order, stopping at the first failure.  Returns the list of
commands actually executed and whether the whole sequence succeeded
(`true` = `runTask` returns `nil`). -/
def runCmdSeq (exch : List Char → Bool) (silent : Bool)
    (vars : List (String × String)) : List String → List String × Bool
  | [] => ([], true)
  | cmd :: rest =>
    if executeCommand exch cmd silent vars then
      let r := runCmdSeq exch silent vars rest
      (cmd :: r.1, r.2)
    else ([cmd], false)

/-- `runTask` from src/main.go lines 213-232.  The task name is only used
for logging; the result is the executed command list together with the
success flag. -/
def runTask (exch : List Char → Bool) (taskName : String) (cmds : List String)
    (silent : Bool) (vars : List (String × String)) : List String × Bool :=
  let _ := taskName
  runCmdSeq exch silent vars cmds

/-- The dependency check of `runAllTasks` (src/main.go lines 155-170):
with a non-empty required list, every required name must map to `true` in
the completion map (`taskCompleted[req]`, missing keys read as `false`).
The completion map only ever holds `true` entries, so it is modelled as
the list of names set so far. -/
def gatePass (taskCompleted : List String) (task : Task) : Bool :=
  if task.required.length > 0 then
    task.required.all (fun req => taskCompleted.contains req)
  else true

/-- Mutable state of `runAllTasks`: the completion map, the
`errorOccurred` flag, and the at-most-one in-flight parallel task (its
name paired with whether its command sequence will succeed). -/
structure RunState where
  completed : List String
  errOcc : Bool
  pending : Option (String × Bool)
deriving DecidableEq

/-- The in-flight parallel task finishes: its goroutine records
`errorOccurred` on failure and sets `taskCompleted[name] = true`, then
releases the `moduleSyncChan` slot (src/main.go lines 176-190). -/
def flushState (s : RunState) : RunState :=
  match s.pending with
  | none => s
  | some (n, ok) => ⟨n :: s.completed, s.errOcc || !ok, none⟩

/-- Dispatch decision recorded for one declared task: skipped at the
dependency gate, run inline (sequential), or dispatched as a parallel
unit; `ok` is whether the task's command sequence succeeded. -/
inductive Disp where
  | skip : Disp
  | seq (ok : Bool) : Disp
  | par (ok : Bool) : Disp
deriving DecidableEq

/-- Observable events of a run, ordered by wall-clock occurrence.  A
sequential task blocks the pass, so it is a single event; a parallel task
occupies the interval from its `parStart` to its `parEnd`. -/
inductive Event where
  | skip (name : String) : Event
  | runSeq (name : String) (ok : Bool) : Event
  | parStart (name : String) : Event
  | parEnd (name : String) (ok : Bool) : Event
deriving DecidableEq

/-- Events emitted when the in-flight parallel task (if any) finishes. -/
def flushTrace (s : RunState) : List Event :=
  match s.pending with
  | none => []
  | some (n, ok) => [Event.parEnd n ok]

/-- One iteration of the `runAllTasks` loop body on task `t`, starting
from state `s1` (src/main.go lines 154-200): evaluate the dependency
gate; on failure skip; otherwise either dispatch a parallel unit (first
acquiring the capacity-1 `moduleSyncChan` slot, which forces any
in-flight parallel task to finish) or run the task inline. -/
def stepTask (exch : List Char → Bool) (vars : List (String × String)) (t : Task)
    (s1 : RunState) : RunState × Disp × List Event :=
  if gatePass s1.completed t then
    if t.parallel then
      let s2 := flushState s1
      let ok := (runTask exch t.name t.cmds t.silent vars).2
      (⟨s2.completed, s2.errOcc, some (t.name, ok)⟩, Disp.par ok,
        flushTrace s1 ++ [Event.parStart t.name])
    else
      let ok := (runTask exch t.name t.cmds t.silent vars).2
      (⟨t.name :: s1.completed, s1.errOcc || !ok, s1.pending⟩, Disp.seq ok,
        [Event.runSeq t.name ok])
  else (s1, Disp.skip, [Event.skip t.name])

/-- Head of the schedule: whether the in-flight parallel task finishes
before the next loop iteration, and the rest of the schedule. -/
def nextBit : List Bool → Bool × List Bool
  | [] => (false, [])
  | b :: bs => (b, bs)

/-- Result of the task loop: final mutable state, unused schedule,
one dispatch decision per declared task, and the event trace. -/
structure LoopRes where
  state : RunState
  sched : List Bool
  disps : List Disp
  trace : List Event
deriving DecidableEq

/-- The `for _, task := range config.Tasks` loop of `runAllTasks`
(src/main.go lines 154-200), parameterised by the interleaving schedule. -/
def runLoop (exch : List Char → Bool) (vars : List (String × String)) :
    List Task → List Bool → RunState → LoopRes
  | [], sched, s => ⟨s, sched, [], []⟩
  | t :: ts, sched, s =>
    let b := (nextBit sched).1
    let s1 := if b then flushState s else s
    let ev1 := if b then flushTrace s else []
    let st := stepTask exch vars t s1
    let r := runLoop exch vars ts (nextBit sched).2 st.1
    ⟨r.state, r.sched, st.2.1 :: r.disps, ev1 ++ st.2.2 ++ r.trace⟩

/-- Observable outcome of `runAllTasks`. -/
structure RunRes where
  exitCode : Nat
  completed : List String
  errOcc : Bool
  disps : List Disp
  trace : List Event
deriving DecidableEq

/-- `runAllTasks` from src/main.go lines 146-210: run the loop from the
empty completion map, `wg.Wait()` for the outstanding parallel unit, then
`os.Exit(1)` if `errorOccurred` and exit status 0 otherwise. -/
def runAllTasks (exch : List Char → Bool) (vars : List (String × String))
    (tasks : List Task) (sched : List Bool) : RunRes :=
  let r := runLoop exch vars tasks sched ⟨[], false, none⟩
  let sF := flushState r.state
  ⟨if sF.errOcc then 1 else 0, sF.completed, sF.errOcc, r.disps,
    r.trace ++ flushTrace r.state⟩

/-- `strings.SplitN(arg, "=", 2)` (src/main.go line 112): split at the
first `=`; `none` when the argument has no `=`. -/
def splitN2 : List Char → Option (List Char × List Char)
  | [] => none
  | c :: cs =>
    if c = '=' then some ([], cs)
    else
      match splitN2 cs with
      | none => none
      | some (k, v) => some (c :: k, v)

/-- Go map assignment `m[k] = v` on the association-list model: overwrite
the existing entry for `k` or append a fresh one. -/
def mapSet (m : List (String × String)) (k v : String) : List (String × String) :=
  match m with
  | [] => [(k, v)]
  | (k0, v0) :: rest => if k0 == k then (k0, v) :: rest else (k0, v0) :: mapSet rest k v

/-- The argument loop of `parseArgs` (src/main.go lines 106-119): collect
`key=value` assignments; `none` when a `usage`/`USAGE` argument is hit
(the program prints the usage text and calls `os.Exit(0)`). -/
def collectArgVars : List String → List (String × String) →
    Option (List (String × String))
  | [], vars => some vars
  | arg :: rest, vars =>
    if arg == "usage" || arg == "USAGE" then none
    else
      match splitN2 arg.data with
      | some (k, v) => collectArgVars rest (mapSet vars (String.mk k) (String.mk v))
      | none => collectArgVars rest vars

/-- The default-merging loop of `parseArgs` (src/main.go lines 137-143):
every default whose key the user did not supply is added to the variable
map.  On the association-list model the user-supplied entries shadow the
defaults. -/
def mergeDefaults (vars defaults : List (String × String)) : List (String × String) :=
  vars ++ defaults.filter (fun kv => (vars.lookup kv.1).isNone)

/-- `parseArgs` from src/main.go lines 102-144: `none` means the process
exited with status 0 after printing the usage text. -/
def parseArgs (defaultVars : List (String × String)) (args : List String) :
    Option (List (String × String)) :=
  match collectArgVars args [] with
  | none => none
  | some vars => some (mergeDefaults vars defaultVars)

/-- `main` from src/main.go lines 34-100, modelled as the process exit
status together with the dispatch decisions of the run (empty when no
task was dispatched).  `readFile` abstracts `ioutil.ReadFile` composed
with `yaml.Unmarshal`: `none` is a read error, `some none` a YAML error,
`some (some cfg)` a successful load; both error cases hit `log.Fatalf`,
which exits with status 1.  The first speculative load (lines 71-79) only
feeds the defaults into `parseArgs`. -/
def mainModel (exch : List Char → Bool) (sched : List Bool) (taskFile : String)
    (args : List String) (readFile : String → Option (Option Config)) :
    Nat × List Disp :=
  let defaultVars :=
    match readFile taskFile with
    | some (some cfg) => cfg.vars
    | _ => []
  match parseArgs defaultVars args with
  | none => (0, [])
  | some varsMerged =>
    if taskFile == "" then (0, [])
    else
      match readFile taskFile with
      | none => (1, [])
      | some none => (1, [])
      | some (some config) =>
        let r := runAllTasks exch varsMerged config.tasks sched
        (r.exitCode, r.disps)

/-- A character list containing no curly brace. -/
def braceFree (l : List Char) : Bool :=
  l.all fun c => !(c == lbrace) && !(c == rbrace)

/-- `pat` occurs as a contiguous substring of the second list
(Go `strings.Contains`). -/
def hasSubstr (pat : List Char) : List Char → Bool
  | [] => pat.isEmpty
  | c :: cs => pat.isPrefixOf (c :: cs) || hasSubstr pat cs

/-- No variable's value contains a brace-wrapped token of a name bound in
the environment (the precondition named by claim C10). -/
def noTokenInValues (env : List (String × String)) : Bool :=
  env.all fun kv => env.all fun kv2 => !(hasSubstr (tokenOf kv2.1.data) kv.2.data)

/-- Whether one dispatch decision records a failed command sequence. -/
def dispFail : Disp → Bool
  | Disp.skip => false
  | Disp.seq ok => !ok
  | Disp.par ok => !ok

/-- Whether any dispatched task's command sequence failed. -/
def dispsFail (ds : List Disp) : Bool :=
  ds.any dispFail

/-- Error contribution of the in-flight parallel task. -/
def pendFail (p : Option (String × Bool)) : Bool :=
  match p with
  | none => false
  | some (_, ok) => !ok

/-- Name of the in-flight parallel task, as a (0- or 1-element) list. -/
def pendingNames (p : Option (String × Bool)) : List String :=
  match p with
  | none => []
  | some (n, _) => [n]

/-- Name of the in-flight parallel task, as an `Option`. -/
def pName (p : Option (String × Bool)) : Option String :=
  match p with
  | none => none
  | some (n, _) => some n

/-- Names of the tasks that were dispatched (not skipped), read off the
per-task dispatch decisions. -/
def dispatchedNames (tasks : List Task) (ds : List Disp) : List String :=
  (tasks.zip ds).filterMap fun p =>
    match p.2 with
    | Disp.skip => none
    | Disp.seq _ => some p.1.name
    | Disp.par _ => some p.1.name

/-- The state in which the dependency gate of the task declared right
after `pre` is evaluated: run the loop over `pre`, then apply the next
schedule bit. -/
def evalStateAfter (exch : List Char → Bool) (vars : List (String × String))
    (pre : List Task) (sched : List Bool) : RunState :=
  let r := runLoop exch vars pre sched ⟨[], false, none⟩
  if (nextBit r.sched).1 then flushState r.state else r.state

/-- Trace well-formedness for the capacity-1 slot: `parStart`/`parEnd`
events strictly alternate and match by name, given the name of the
currently in-flight parallel task. -/
def altOK (p : Option String) : List Event → Bool
  | [] => true
  | Event.skip _ :: rest => altOK p rest
  | Event.runSeq _ _ :: rest => altOK p rest
  | Event.parStart n :: rest =>
    match p with
    | none => altOK (some n) rest
    | some _ => false
  | Event.parEnd n _ :: rest =>
    match p with
    | some m => (m == n) && altOK none rest
    | none => false

/-- A set `S` of task names none of which can ever be completed from
state `s` while running the remaining tasks `ts`: no name of `S` is
completed or in flight, and every remaining task carrying a name of `S`
requires some name of `S`. -/
def Doomed (S : List String) (ts : List Task) (s : RunState) : Prop :=
  ∀ x ∈ S, x ∉ s.completed ∧ x ∉ pendingNames s.pending ∧
    ∀ u ∈ ts, u.name = x → ∃ req, req ∈ u.required ∧ req ∈ S

/-- A command string decomposed into brace-free literal text and whole
`tokenOf` placeholders (used to state the order-independence of
`replacePlaceholders`). -/
inductive CmdPiece where
  | lit (s : List Char) : CmdPiece
  | var (n : String) : CmdPiece
deriving DecidableEq

/-- Flatten a piece decomposition back into the command string. -/
def renderPieces : List CmdPiece → List Char
  | [] => []
  | CmdPiece.lit s :: ps => s ++ renderPieces ps
  | CmdPiece.var n :: ps => tokenOf n.data ++ renderPieces ps

/-- One-shot substitution of a whole environment on a piece. -/
def substPiece (env : List (String × String)) : CmdPiece → CmdPiece
  | CmdPiece.lit s => CmdPiece.lit s
  | CmdPiece.var n =>
    match env.lookup n with
    | some v => CmdPiece.lit v.data
    | none => CmdPiece.var n

/-- Substitution of the single variable `k ↦ v` on a piece. -/
def replaceVarPiece (k v : String) : CmdPiece → CmdPiece
  | CmdPiece.lit s => CmdPiece.lit s
  | CmdPiece.var n => if n == k then CmdPiece.lit v.data else CmdPiece.var n

/-- A piece is well-formed when its literal text or variable name is
brace-free. -/
def pieceWF : CmdPiece → Bool
  | CmdPiece.lit s => braceFree s
  | CmdPiece.var n => braceFree n.data

/-- All literals and all variable names of the decomposition are
brace-free. -/
def wfPieces (ps : List CmdPiece) : Bool :=
  ps.all pieceWF

/-- All keys and values of the environment are brace-free. -/
def wfEnv (env : List (String × String)) : Bool :=
  env.all fun kv => braceFree kv.1.data && braceFree kv.2.data

/-! Concrete inputs used by witnesses and counterexamples.  The command
oracle makes exactly the command `false` exit non-zero. -/

/-- Sample exit-status oracle: every rendered command succeeds except the
literal command `false`. -/
def execSample : List Char → Bool := fun l => !(l == "false".data)

/-- Task `A{cmds:[true]}` of the spec's end-to-end example. -/
def taskA : Task := ⟨"A", ["true"], false, false, []⟩

/-- Task `B{required:[A], cmds:[false]}` of the spec's end-to-end example. -/
def taskB : Task := ⟨"B", ["false"], false, false, ["A"]⟩

/-- Task `C{required:[B], cmds:[echo hi]}` of the spec's end-to-end example. -/
def taskC : Task := ⟨"C", ["echo hi"], false, false, ["B"]⟩

/-- A task requiring the never-declared name `Z`. -/
def taskT : Task := ⟨"T", ["true"], false, false, ["Z"]⟩

/-- A task depending on `taskT`. -/
def taskD : Task := ⟨"D", ["true"], false, false, ["T"]⟩

/-- A parallel task with no dependencies. -/
def taskP : Task := ⟨"P", ["true"], false, true, []⟩

/-- A second parallel task with no dependencies. -/
def taskQ : Task := ⟨"Q", ["true"], false, true, []⟩

/-- The adversarial variable name `A\x7d\x7d\x7b\x7bB`, whose token is
the concatenation of the tokens of `A` and `B`. -/
def weirdKey : String :=
  String.mk ('A' :: rbrace :: rbrace :: lbrace :: lbrace :: 'B' :: [])

/-- The command string `\x7b\x7bA\x7d\x7d\x7b\x7bB\x7d\x7d`. -/
def braceInput : List Char := tokenOf "A".data ++ tokenOf "B".data

/-- An environment listing the adversarial key last. -/
def envLast : List (String × String) := [("A", "1"), ("B", "2"), (weirdKey, "x")]

/-- The same environment listing the adversarial key first. -/
def envFirst : List (String × String) := [(weirdKey, "x"), ("A", "1"), ("B", "2")]

/-! ### Lemmas about the `strings.ReplaceAll` model -/

theorem ite_cond_false {α : Sort u_1} (a b : α) : (if false = true then a else b) = b := rfl

theorem ite_cond_true {α : Sort u_1} (a b : α) : (if true = true then a else b) = a := rfl

theorem isPrefixOf_nil_left (l : List Char) : (([] : List Char)).isPrefixOf l = true := by
  cases l <;> rfl

theorem isPrefixOf_cons_nil (a : Char) (as : List Char) :
    (a :: as).isPrefixOf ([] : List Char) = false := rfl

theorem isPrefixOf_cons_cons (a b : Char) (as bs : List Char) :
    (a :: as).isPrefixOf (b :: bs) = (a == b && as.isPrefixOf bs) := rfl

theorem isPrefixOf_self_append (l suf : List Char) : l.isPrefixOf (l ++ suf) = true := by
  induction l with
  | nil => rw [List.nil_append]; exact isPrefixOf_nil_left suf
  | cons a as ih => simp [isPrefixOf_cons_cons, ih]

theorem raGo_eq_drop (pat repl : List Char) :
    ∀ (l : List Char) (n : Nat), raGo pat repl n l = raGo pat repl 0 (l.drop n) := by
  intro l
  induction l with
  | nil => intro n; cases n <;> simp [raGo]
  | cons c cs ih =>
    intro n
    cases n with
    | zero => simp
    | succ n => simpa [raGo] using ih n

theorem replaceAll_nil (pat repl : List Char) : replaceAll pat repl [] = [] := rfl

theorem replaceAll_cons (pat repl : List Char) (c : Char) (cs : List Char) :
    replaceAll pat repl (c :: cs) =
      if pat.isPrefixOf (c :: cs) then
        repl ++ replaceAll pat repl (List.drop (pat.length - 1) cs)
      else c :: replaceAll pat repl cs := by
  show raGo pat repl 0 (c :: cs) = _
  rw [raGo, raGo_eq_drop pat repl cs (pat.length - 1)]
  rfl

theorem braceFree_cons_iff (c : Char) (l : List Char) :
    braceFree (c :: l) = true ↔ (c ≠ lbrace ∧ c ≠ rbrace ∧ braceFree l = true) := by
  simp [braceFree, and_assoc]

theorem replaceAll_append_braceFree (p repl : List Char) :
    ∀ (pre rest : List Char), braceFree pre = true →
      replaceAll (lbrace :: p) repl (pre ++ rest) =
        pre ++ replaceAll (lbrace :: p) repl rest := by
  intro pre
  induction pre with
  | nil => intro rest _; simp
  | cons c cs ih =>
    intro rest h
    obtain ⟨h1, _, h3⟩ := (braceFree_cons_iff c cs).1 h
    rw [List.cons_append, replaceAll_cons, isPrefixOf_cons_cons]
    have hb : (lbrace == c) = false := beq_eq_false_iff_ne.mpr (Ne.symm h1)
    rw [hb]
    simp [ih rest h3]

theorem replaceAll_head_match (a : Char) (p repl suf : List Char) :
    replaceAll (a :: p) repl ((a :: p) ++ suf) = repl ++ replaceAll (a :: p) repl suf := by
  rw [List.cons_append, replaceAll_cons, isPrefixOf_cons_cons]
  have h1 : (a == a) = true := beq_self_eq_true a
  have h2 : p.isPrefixOf (p ++ suf) = true := isPrefixOf_self_append p suf
  rw [h1, h2]
  simp only [Bool.true_and, if_true, List.length_cons, Nat.add_sub_cancel,
    List.drop_left]

theorem replaceAll_braceFree_id (p repl l : List Char) (h : braceFree l = true) :
    replaceAll (lbrace :: p) repl l = l := by
  have := replaceAll_append_braceFree p repl l [] h
  simpa [replaceAll_nil] using this

theorem isPrefixOf_rr_false :
    ∀ (Y X suf : List Char), braceFree X = true → braceFree Y = true → Y ≠ X →
      (Y ++ [rbrace, rbrace]).isPrefixOf (X ++ rbrace :: rbrace :: suf) = false := by
  intro Y
  induction Y with
  | nil =>
    intro X suf hX _ hne
    cases X with
    | nil => exact absurd rfl hne
    | cons a as =>
      obtain ⟨_, h2, _⟩ := (braceFree_cons_iff a as).1 hX
      rw [List.nil_append, List.cons_append, isPrefixOf_cons_cons]
      have hb : (rbrace == a) = false := beq_eq_false_iff_ne.mpr (Ne.symm h2)
      rw [hb, Bool.false_and]
  | cons c cs ih =>
    intro X suf hX hY hne
    obtain ⟨_, hc2, hcs⟩ := (braceFree_cons_iff c cs).1 hY
    cases X with
    | nil =>
      rw [List.cons_append, List.nil_append, isPrefixOf_cons_cons]
      have hb : (c == rbrace) = false := beq_eq_false_iff_ne.mpr hc2
      rw [hb, Bool.false_and]
    | cons a as =>
      obtain ⟨_, _, has⟩ := (braceFree_cons_iff a as).1 hX
      rw [List.cons_append, List.cons_append, isPrefixOf_cons_cons]
      by_cases hca : c = a
      · subst hca
        have hne' : cs ≠ as := fun hh => hne (by rw [hh])
        rw [ih as suf has hcs hne', Bool.and_false]
      · have hb : (c == a) = false := beq_eq_false_iff_ne.mpr hca
        rw [hb, Bool.false_and]

theorem tokenOf_isPrefixOf_false (Y X suf : List Char)
    (hX : braceFree X = true) (hY : braceFree Y = true) (hne : Y ≠ X) :
    (tokenOf Y).isPrefixOf (tokenOf X ++ suf) = false := by
  have e0 : tokenOf X ++ suf = lbrace :: lbrace :: (X ++ rbrace :: rbrace :: suf) := by
    simp [tokenOf]
  rw [e0]
  show (lbrace :: lbrace :: (Y ++ [rbrace, rbrace])).isPrefixOf _ = false
  rw [isPrefixOf_cons_cons, isPrefixOf_cons_cons]
  rw [isPrefixOf_rr_false Y X suf hX hY hne, Bool.and_false, Bool.and_false]

theorem replaceAll_tokenOf_eq (X suf repl : List Char) :
    replaceAll (tokenOf X) repl (tokenOf X ++ suf) =
      repl ++ replaceAll (tokenOf X) repl suf := by
  have := replaceAll_head_match lbrace (lbrace :: (X ++ [rbrace, rbrace])) repl suf
  simpa [tokenOf] using this

theorem replaceAll_tokenOf_ne (Y X suf repl : List Char)
    (hX : braceFree X = true) (hY : braceFree Y = true) (hne : Y ≠ X) :
    replaceAll (tokenOf Y) repl (tokenOf X ++ suf) =
      tokenOf X ++ replaceAll (tokenOf Y) repl suf := by
  have e0 : tokenOf X ++ suf = lbrace :: lbrace :: (X ++ rbrace :: rbrace :: suf) := by
    simp [tokenOf]
  have h0 : (tokenOf Y).isPrefixOf (lbrace :: lbrace :: (X ++ rbrace :: rbrace :: suf)) =
      false := by
    rw [← e0]; exact tokenOf_isPrefixOf_false Y X suf hX hY hne
  have h1 : (tokenOf Y).isPrefixOf (lbrace :: (X ++ rbrace :: rbrace :: suf)) = false := by
    show (lbrace :: lbrace :: (Y ++ [rbrace, rbrace])).isPrefixOf _ = false
    rw [isPrefixOf_cons_cons]
    cases X with
    | nil =>
      rw [List.nil_append, isPrefixOf_cons_cons]
      have hb : (lbrace == rbrace) = false := by decide
      rw [hb, Bool.false_and, Bool.and_false]
    | cons a as =>
      obtain ⟨ha1, _, _⟩ := (braceFree_cons_iff a as).1 hX
      rw [List.cons_append, isPrefixOf_cons_cons]
      have hb : (lbrace == a) = false := beq_eq_false_iff_ne.mpr (Ne.symm ha1)
      rw [hb, Bool.false_and, Bool.and_false]
  have h2 : (tokenOf Y).isPrefixOf (rbrace :: rbrace :: suf) = false := by
    show (lbrace :: lbrace :: (Y ++ [rbrace, rbrace])).isPrefixOf _ = false
    rw [isPrefixOf_cons_cons]
    have hb : (lbrace == rbrace) = false := by decide
    rw [hb, Bool.false_and]
  have h3 : (tokenOf Y).isPrefixOf (rbrace :: suf) = false := by
    show (lbrace :: lbrace :: (Y ++ [rbrace, rbrace])).isPrefixOf _ = false
    rw [isPrefixOf_cons_cons]
    have hb : (lbrace == rbrace) = false := by decide
    rw [hb, Bool.false_and]
  rw [e0, replaceAll_cons, h0, ite_cond_false]
  rw [replaceAll_cons, h1, ite_cond_false]
  have h4 : replaceAll (tokenOf Y) repl (X ++ rbrace :: rbrace :: suf) =
      X ++ replaceAll (tokenOf Y) repl (rbrace :: rbrace :: suf) := by
    have := replaceAll_append_braceFree (lbrace :: (Y ++ [rbrace, rbrace])) repl X
      (rbrace :: rbrace :: suf) hX
    simpa [tokenOf] using this
  rw [h4, replaceAll_cons, h2, ite_cond_false]
  rw [replaceAll_cons, h3, ite_cond_false]
  simp [tokenOf]

/-! ### Placeholder substitution over piece decompositions -/

theorem string_data_injective {a b : String} (h : a.data = b.data) : a = b := by
  cases a; cases b; exact congrArg String.mk h

theorem wfPieces_cons (p : CmdPiece) (ps : List CmdPiece) (h : wfPieces (p :: ps) = true) :
    pieceWF p = true ∧ wfPieces ps = true := by
  simpa [wfPieces] using h

theorem replaceAll_renderPieces (k v : String) :
    ∀ ps : List CmdPiece, braceFree k.data = true → braceFree v.data = true →
      wfPieces ps = true →
      replaceAll (tokenOf k.data) v.data (renderPieces ps) =
        renderPieces (ps.map (replaceVarPiece k v)) := by
  intro ps
  induction ps with
  | nil => intro _ _ _; rfl
  | cons p ps ih =>
    intro hk hv hps
    obtain ⟨hp, hps'⟩ := wfPieces_cons p ps hps
    cases p with
    | lit s =>
      have hs : braceFree s = true := by simpa [pieceWF] using hp
      have h := replaceAll_append_braceFree (lbrace :: (k.data ++ [rbrace, rbrace]))
        v.data s (renderPieces ps) hs
      rw [show (lbrace :: lbrace :: (k.data ++ [rbrace, rbrace])) = tokenOf k.data
        from rfl] at h
      simp only [List.map_cons, renderPieces, replaceVarPiece]
      rw [h, ih hk hv hps']
    | var n =>
      have hn : braceFree n.data = true := by simpa [pieceWF] using hp
      by_cases hnk : n = k
      · subst hnk
        simp only [List.map_cons, renderPieces, replaceVarPiece, beq_self_eq_true,
          if_pos]
        rw [replaceAll_tokenOf_eq, ih hk hv hps']
      · have hdne : (k.data : List Char) ≠ n.data :=
          fun hh => hnk (string_data_injective hh).symm
        have hb : (n == k) = false := beq_eq_false_iff_ne.mpr hnk
        simp only [List.map_cons, renderPieces, replaceVarPiece, hb]
        rw [replaceAll_tokenOf_ne k.data n.data (renderPieces ps) v.data hn hk hdne,
          ih hk hv hps']

theorem map_substPiece_nil (ps : List CmdPiece) : ps.map (substPiece []) = ps := by
  induction ps with
  | nil => rfl
  | cons p ps ihp => cases p <;> simp [substPiece, List.lookup, ihp]

theorem substPiece_cons (k v : String) (env : List (String × String)) (p : CmdPiece) :
    substPiece env (replaceVarPiece k v p) = substPiece ((k, v) :: env) p := by
  cases p with
  | lit s => rfl
  | var n =>
    by_cases h : n = k
    · subst h; simp [replaceVarPiece, substPiece, List.lookup]
    · have hb : (n == k) = false := beq_eq_false_iff_ne.mpr h
      simp [replaceVarPiece, substPiece, List.lookup, hb]

theorem wfPieces_map_replaceVar (k v : String) (hv : braceFree v.data = true)
    (ps : List CmdPiece) (hps : wfPieces ps = true) :
    wfPieces (ps.map (replaceVarPiece k v)) = true := by
  rw [wfPieces, List.all_eq_true] at hps ⊢
  intro p hp
  obtain ⟨q, hq, rfl⟩ := List.mem_map.1 hp
  have hq' := hps q hq
  cases q with
  | lit s => simpa [replaceVarPiece, pieceWF] using hq'
  | var n =>
    by_cases hnk : n = k
    · subst hnk; simp [replaceVarPiece, pieceWF, hv]
    · have hb : (n == k) = false := beq_eq_false_iff_ne.mpr hnk
      simpa [replaceVarPiece, pieceWF, hb] using hq'

theorem wfEnv_cons (k v : String) (env : List (String × String))
    (h : wfEnv ((k, v) :: env) = true) :
    braceFree k.data = true ∧ braceFree v.data = true ∧ wfEnv env = true := by
  simpa [wfEnv, and_assoc] using h

theorem replacePlaceholders_renderPieces :
    ∀ (env : List (String × String)) (ps : List CmdPiece), wfEnv env = true →
      wfPieces ps = true →
      replacePlaceholders (renderPieces ps) env =
        renderPieces (ps.map (substPiece env)) := by
  intro env
  induction env with
  | nil =>
    intro ps _ _
    simp [replacePlaceholders, map_substPiece_nil]
  | cons kv env ih =>
    intro ps henv hps
    obtain ⟨k, v⟩ := kv
    obtain ⟨hk, hv, henv'⟩ := wfEnv_cons k v env henv
    have hstep : replacePlaceholders (renderPieces ps) ((k, v) :: env) =
        replacePlaceholders (replaceAll (tokenOf k.data) v.data (renderPieces ps)) env := rfl
    rw [hstep, replaceAll_renderPieces k v ps hk hv hps,
      ih (ps.map (replaceVarPiece k v)) henv' (wfPieces_map_replaceVar k v hv ps hps),
      List.map_map]
    congr 1
    apply List.map_congr_left
    intro p _
    exact substPiece_cons k v env p

/-! ### Association-list lookup lemmas -/

theorem lookup_cons_self (k w : String) (l : List (String × String)) :
    ((k, w) :: l).lookup k = some w := by
  simp [List.lookup]

theorem lookup_cons_ne {n k : String} (w : String) (l : List (String × String))
    (hk : n ≠ k) : ((k, w) :: l).lookup n = l.lookup n := by
  have hb : (n == k) = false := beq_eq_false_iff_ne.mpr hk
  simp [List.lookup, hb]

theorem lookup_eq_some_mem {l : List (String × String)} {n v : String}
    (h : l.lookup n = some v) : (n, v) ∈ l := by
  induction l with
  | nil => simp [List.lookup] at h
  | cons kv l ih =>
    obtain ⟨k, w⟩ := kv
    by_cases hk : n = k
    · subst hk
      rw [lookup_cons_self] at h
      simp at h
      simp [h]
    · rw [lookup_cons_ne w l hk] at h
      exact List.mem_cons_of_mem _ (ih h)

theorem lookup_of_mem_nodup {l : List (String × String)} {n v : String}
    (hmem : (n, v) ∈ l) (hnd : (l.map Prod.fst).Nodup) : l.lookup n = some v := by
  induction l with
  | nil => simp at hmem
  | cons kv l ih =>
    obtain ⟨k, w⟩ := kv
    rw [List.map_cons, List.nodup_cons] at hnd
    rcases List.mem_cons.1 hmem with heq | htail
    · obtain ⟨h1, h2⟩ := Prod.mk.injEq .. ▸ heq
      subst h1; subst h2
      exact lookup_cons_self n v l
    · by_cases hk : n = k
      · exfalso
        subst hk
        exact hnd.1 (List.mem_map.2 ⟨(n, v), htail, rfl⟩)
      · rw [lookup_cons_ne w l hk]
        exact ih htail hnd.2

theorem lookup_eq_none_iff {l : List (String × String)} {n : String} :
    l.lookup n = none ↔ n ∉ l.map Prod.fst := by
  induction l with
  | nil => simp [List.lookup]
  | cons kv l ih =>
    obtain ⟨k, w⟩ := kv
    by_cases hk : n = k
    · subst hk
      rw [lookup_cons_self]
      simp
    · rw [lookup_cons_ne w l hk]
      simp [hk, ih]

theorem lookup_perm_eq {l l' : List (String × String)} (hperm : l.Perm l')
    (hnd : (l.map Prod.fst).Nodup) (n : String) : l.lookup n = l'.lookup n := by
  cases h : l.lookup n with
  | none =>
    have hn : n ∉ l.map Prod.fst := lookup_eq_none_iff.1 h
    have hn' : n ∉ l'.map Prod.fst := fun hc => hn ((hperm.map Prod.fst).mem_iff.2 hc)
    exact (lookup_eq_none_iff.2 hn').symm
  | some v =>
    have hmem' : (n, v) ∈ l' := hperm.mem_iff.1 (lookup_eq_some_mem h)
    have hnd' : (l'.map Prod.fst).Nodup := ((hperm.map Prod.fst).nodup_iff).1 hnd
    exact (lookup_of_mem_nodup hmem' hnd').symm

theorem lookup_append_some (l2 : List (String × String)) {l1 : List (String × String)}
    {n v : String} (h : l1.lookup n = some v) : (l1 ++ l2).lookup n = some v := by
  induction l1 with
  | nil => simp [List.lookup] at h
  | cons kv l1 ih =>
    obtain ⟨k, w⟩ := kv
    by_cases hk : n = k
    · subst hk
      rw [lookup_cons_self] at h
      rw [List.cons_append, lookup_cons_self]
      exact h
    · rw [lookup_cons_ne w l1 hk] at h
      rw [List.cons_append, lookup_cons_ne w (l1 ++ l2) hk]
      exact ih h

theorem lookup_append_none {l1 l2 : List (String × String)} {n : String}
    (h : l1.lookup n = none) : (l1 ++ l2).lookup n = l2.lookup n := by
  induction l1 with
  | nil => simp
  | cons kv l1 ih =>
    obtain ⟨k, w⟩ := kv
    by_cases hk : n = k
    · subst hk
      rw [lookup_cons_self] at h
      simp at h
    · rw [lookup_cons_ne w l1 hk] at h
      rw [List.cons_append, lookup_cons_ne w (l1 ++ l2) hk]
      exact ih h

theorem lookup_filter_keep {o d : List (String × String)} {n : String}
    (h : o.lookup n = none) :
    (d.filter fun kv => (o.lookup kv.1).isNone).lookup n = d.lookup n := by
  induction d with
  | nil => simp
  | cons kv d ih =>
    obtain ⟨k, w⟩ := kv
    by_cases hk : n = k
    · subst hk
      have hcond : (o.lookup n).isNone = true := by simp [h]
      rw [List.filter_cons, if_pos hcond]
      rw [lookup_cons_self, lookup_cons_self]
    · rw [List.filter_cons]
      cases hcond : (o.lookup k).isNone with
      | true =>
        rw [ite_cond_true]
        rw [lookup_cons_ne w _ hk, lookup_cons_ne w d hk]
        exact ih
      | false =>
        rw [ite_cond_false]
        rw [lookup_cons_ne w d hk]
        exact ih

theorem lookup_mergeDefaults (o d : List (String × String)) (n : String) :
    (mergeDefaults o d).lookup n =
      match o.lookup n with
      | some v => some v
      | none => d.lookup n := by
  cases h : o.lookup n with
  | some v =>
    simpa [mergeDefaults] using
      lookup_append_some (d.filter fun kv => (o.lookup kv.1).isNone) h
  | none =>
    rw [mergeDefaults, lookup_append_none h]
    exact lookup_filter_keep h

theorem wfEnv_mergeDefaults {o d : List (String × String)}
    (ho : wfEnv o = true) (hd : wfEnv d = true) : wfEnv (mergeDefaults o d) = true := by
  rw [wfEnv, List.all_eq_true] at ho hd ⊢
  intro kv hkv
  rcases List.mem_append.1 hkv with hmem | hmem
  · exact ho kv hmem
  · exact hd kv (List.mem_of_mem_filter hmem)

theorem replacePlaceholders_token (env : List (String × String)) (X : String)
    (pre suf : List Char) (hpre : braceFree pre = true) (hsuf : braceFree suf = true)
    (hX : braceFree X.data = true) (henv : wfEnv env = true) :
    replacePlaceholders (pre ++ (tokenOf X.data ++ suf)) env =
      pre ++ ((match env.lookup X with
               | some v => v.data
               | none => tokenOf X.data) ++ suf) := by
  have hps : wfPieces [CmdPiece.lit pre, CmdPiece.var X, CmdPiece.lit suf] = true := by
    simp [wfPieces, pieceWF, hpre, hsuf, hX]
  have h := replacePlaceholders_renderPieces env
    [CmdPiece.lit pre, CmdPiece.var X, CmdPiece.lit suf] henv hps
  cases hl : env.lookup X with
  | some v =>
    simp [renderPieces, substPiece, hl] at h
    simpa [renderPieces] using h
  | none =>
    simp [renderPieces, substPiece, hl] at h
    simpa [renderPieces] using h

/-! ### Lemmas about the orchestrator -/

theorem contains_iff_mem (l : List String) (x : String) :
    l.contains x = true ↔ x ∈ l := by
  simp

theorem runLoop_nil (exch : List Char → Bool) (vars : List (String × String))
    (sched : List Bool) (s : RunState) :
    runLoop exch vars [] sched s = ⟨s, sched, [], []⟩ := rfl

theorem runLoop_cons (exch : List Char → Bool) (vars : List (String × String))
    (t : Task) (ts : List Task) (sched : List Bool) (s : RunState) :
    runLoop exch vars (t :: ts) sched s =
      ⟨(runLoop exch vars ts (nextBit sched).2
          (stepTask exch vars t (if (nextBit sched).1 then flushState s else s)).1).state,
        (runLoop exch vars ts (nextBit sched).2
          (stepTask exch vars t (if (nextBit sched).1 then flushState s else s)).1).sched,
        (stepTask exch vars t (if (nextBit sched).1 then flushState s else s)).2.1 ::
          (runLoop exch vars ts (nextBit sched).2
            (stepTask exch vars t (if (nextBit sched).1 then flushState s else s)).1).disps,
        ((if (nextBit sched).1 then flushTrace s else []) ++
            (stepTask exch vars t (if (nextBit sched).1 then flushState s else s)).2.2) ++
          (runLoop exch vars ts (nextBit sched).2
            (stepTask exch vars t
              (if (nextBit sched).1 then flushState s else s)).1).trace⟩ := rfl

theorem stepTask_eq_skip {exch : List Char → Bool} {vars : List (String × String)}
    {t : Task} {s1 : RunState} (h : gatePass s1.completed t = false) :
    stepTask exch vars t s1 = (s1, Disp.skip, [Event.skip t.name]) := by
  unfold stepTask
  rw [h, ite_cond_false]

theorem stepTask_eq_seq {exch : List Char → Bool} {vars : List (String × String)}
    {t : Task} {s1 : RunState} (h : gatePass s1.completed t = true)
    (hp : t.parallel = false) :
    stepTask exch vars t s1 =
      (⟨t.name :: s1.completed,
         s1.errOcc || !(runTask exch t.name t.cmds t.silent vars).2, s1.pending⟩,
       Disp.seq (runTask exch t.name t.cmds t.silent vars).2,
       [Event.runSeq t.name (runTask exch t.name t.cmds t.silent vars).2]) := by
  unfold stepTask
  rw [h, ite_cond_true, hp, ite_cond_false]

theorem stepTask_eq_par {exch : List Char → Bool} {vars : List (String × String)}
    {t : Task} {s1 : RunState} (h : gatePass s1.completed t = true)
    (hp : t.parallel = true) :
    stepTask exch vars t s1 =
      (⟨(flushState s1).completed, (flushState s1).errOcc,
         some (t.name, (runTask exch t.name t.cmds t.silent vars).2)⟩,
       Disp.par (runTask exch t.name t.cmds t.silent vars).2,
       flushTrace s1 ++ [Event.parStart t.name]) := by
  unfold stepTask
  rw [h, ite_cond_true, hp, ite_cond_true]

theorem flushState_pending (s : RunState) : (flushState s).pending = none := by
  obtain ⟨c, e, p⟩ := s
  cases p with
  | none => rfl
  | some nk => obtain ⟨n, ok⟩ := nk; rfl

theorem flushState_idem (s : RunState) : flushState (flushState s) = flushState s := by
  obtain ⟨c, e, p⟩ := s
  cases p with
  | none => rfl
  | some nk => obtain ⟨n, ok⟩ := nk; rfl

theorem flushState_errOcc (s : RunState) :
    (flushState s).errOcc = (s.errOcc || pendFail s.pending) := by
  obtain ⟨c, e, p⟩ := s
  cases p with
  | none => simp [flushState, pendFail]
  | some nk => obtain ⟨n, ok⟩ := nk; simp [flushState, pendFail]

theorem flushState_completed_mem (s : RunState) (x : String) :
    x ∈ (flushState s).completed ↔ x ∈ s.completed ∨ x ∈ pendingNames s.pending := by
  obtain ⟨c, e, p⟩ := s
  cases p with
  | none => simp [flushState, pendingNames]
  | some nk =>
    obtain ⟨n, ok⟩ := nk
    simp [flushState, pendingNames, List.mem_cons]
    tauto

theorem flushState_if_errOcc (b : Bool) (s : RunState) :
    (flushState (if b then flushState s else s)).errOcc = (flushState s).errOcc := by
  cases b with
  | true => simp [flushState_idem]
  | false => simp

theorem flushState_if_mem (b : Bool) (s : RunState) (x : String) :
    x ∈ (flushState (if b then flushState s else s)).completed ↔
      x ∈ (flushState s).completed := by
  cases b with
  | true => simp [flushState_idem]
  | false => simp

theorem dispsFail_cons (d : Disp) (ds : List Disp) :
    dispsFail (d :: ds) = (dispFail d || dispsFail ds) := rfl

theorem runLoop_disps_length (exch : List Char → Bool) (vars : List (String × String)) :
    ∀ (ts : List Task) (sched : List Bool) (s : RunState),
      (runLoop exch vars ts sched s).disps.length = ts.length := by
  intro ts
  induction ts with
  | nil => intro sched s; rfl
  | cons t ts ih =>
    intro sched s
    rw [runLoop_cons]
    simp [ih]

theorem runLoop_append (exch : List Char → Bool) (vars : List (String × String)) :
    ∀ (as bs : List Task) (sched : List Bool) (s : RunState),
      runLoop exch vars (as ++ bs) sched s =
        ⟨(runLoop exch vars bs (runLoop exch vars as sched s).sched
            (runLoop exch vars as sched s).state).state,
          (runLoop exch vars bs (runLoop exch vars as sched s).sched
            (runLoop exch vars as sched s).state).sched,
          (runLoop exch vars as sched s).disps ++
            (runLoop exch vars bs (runLoop exch vars as sched s).sched
              (runLoop exch vars as sched s).state).disps,
          (runLoop exch vars as sched s).trace ++
            (runLoop exch vars bs (runLoop exch vars as sched s).sched
              (runLoop exch vars as sched s).state).trace⟩ := by
  intro as
  induction as with
  | nil => intro bs sched s; rfl
  | cons a as ih =>
    intro bs sched s
    rw [List.cons_append, runLoop_cons, runLoop_cons, ih]
    simp [List.append_assoc]

theorem errOcc_step (exch : List Char → Bool) (vars : List (String × String))
    (t : Task) (ts : List Task) (sched' : List Bool) (s1 : RunState)
    (ih : ∀ (sched : List Bool) (s : RunState),
      (flushState (runLoop exch vars ts sched s).state).errOcc =
        ((flushState s).errOcc || dispsFail (runLoop exch vars ts sched s).disps)) :
    (flushState (runLoop exch vars ts sched' (stepTask exch vars t s1).1).state).errOcc =
      ((flushState s1).errOcc ||
        dispsFail ((stepTask exch vars t s1).2.1 ::
          (runLoop exch vars ts sched' (stepTask exch vars t s1).1).disps)) := by
  cases hg : gatePass s1.completed t with
  | false =>
    rw [stepTask_eq_skip hg, ih, dispsFail_cons]
    simp [dispFail]
  | true =>
    cases hp : t.parallel with
    | false =>
      rw [stepTask_eq_seq hg hp, ih, dispsFail_cons]
      rw [flushState_errOcc, flushState_errOcc]
      simp only [dispFail]
      cases s1.errOcc <;> cases pendFail s1.pending <;>
        cases (runTask exch t.name t.cmds t.silent vars).2 <;> simp
    | true =>
      rw [stepTask_eq_par hg hp, ih, dispsFail_cons]
      rw [flushState_errOcc, flushState_errOcc]
      simp only [dispFail, pendFail]
      cases s1.errOcc <;> cases pendFail s1.pending <;>
        cases (runTask exch t.name t.cmds t.silent vars).2 <;>
          simp [flushState_errOcc, pendFail]

theorem runLoop_errOcc (exch : List Char → Bool) (vars : List (String × String)) :
    ∀ (ts : List Task) (sched : List Bool) (s : RunState),
      (flushState (runLoop exch vars ts sched s).state).errOcc =
        ((flushState s).errOcc || dispsFail (runLoop exch vars ts sched s).disps) := by
  intro ts
  induction ts with
  | nil => intro sched s; simp [runLoop_nil, dispsFail]
  | cons t ts ih =>
    intro sched s
    rw [runLoop_cons]
    cases hbit : (nextBit sched).1 with
    | false =>
      rw [ite_cond_false]
      exact errOcc_step exch vars t ts (nextBit sched).2 s ih
    | true =>
      rw [ite_cond_true]
      rw [errOcc_step exch vars t ts (nextBit sched).2 (flushState s) ih,
        flushState_idem]

theorem dispatchedNames_nil (tasks : List Task) : dispatchedNames tasks [] = [] := by
  simp [dispatchedNames]

theorem dispatchedNames_cons_skip (t : Task) (ts : List Task) (ds : List Disp) :
    dispatchedNames (t :: ts) (Disp.skip :: ds) = dispatchedNames ts ds := rfl

theorem dispatchedNames_cons_seq (t : Task) (ts : List Task) (ok : Bool) (ds : List Disp) :
    dispatchedNames (t :: ts) (Disp.seq ok :: ds) = t.name :: dispatchedNames ts ds := rfl

theorem dispatchedNames_cons_par (t : Task) (ts : List Task) (ok : Bool) (ds : List Disp) :
    dispatchedNames (t :: ts) (Disp.par ok :: ds) = t.name :: dispatchedNames ts ds := rfl

theorem completed_mem_step (exch : List Char → Bool) (vars : List (String × String))
    (t : Task) (ts : List Task) (sched' : List Bool) (s1 : RunState) (x : String)
    (ih : ∀ (sched : List Bool) (s : RunState),
      (x ∈ (flushState (runLoop exch vars ts sched s).state).completed ↔
        x ∈ (flushState s).completed ∨
          x ∈ dispatchedNames ts (runLoop exch vars ts sched s).disps)) :
    (x ∈ (flushState (runLoop exch vars ts sched' (stepTask exch vars t s1).1).state).completed ↔
      x ∈ (flushState s1).completed ∨
        x ∈ dispatchedNames (t :: ts) ((stepTask exch vars t s1).2.1 ::
          (runLoop exch vars ts sched' (stepTask exch vars t s1).1).disps)) := by
  cases hg : gatePass s1.completed t with
  | false =>
    rw [stepTask_eq_skip hg]
    rw [ih, dispatchedNames_cons_skip]
  | true =>
    cases hp : t.parallel with
    | false =>
      rw [stepTask_eq_seq hg hp]
      rw [ih, dispatchedNames_cons_seq]
      rw [flushState_completed_mem, flushState_completed_mem]
      simp only [List.mem_cons]
      tauto
    | true =>
      rw [stepTask_eq_par hg hp]
      rw [ih, dispatchedNames_cons_par]
      rw [flushState_completed_mem, flushState_completed_mem]
      simp only [List.mem_cons, pendingNames, List.mem_singleton]
      tauto

theorem runLoop_completed_mem (exch : List Char → Bool) (vars : List (String × String))
    (x : String) : ∀ (ts : List Task) (sched : List Bool) (s : RunState),
    (x ∈ (flushState (runLoop exch vars ts sched s).state).completed ↔
      x ∈ (flushState s).completed ∨
        x ∈ dispatchedNames ts (runLoop exch vars ts sched s).disps) := by
  intro ts
  induction ts with
  | nil => intro sched s; simp [runLoop_nil, dispatchedNames_nil]
  | cons t ts ih =>
    intro sched s
    rw [runLoop_cons]
    cases hbit : (nextBit sched).1 with
    | false =>
      rw [ite_cond_false]
      exact completed_mem_step exch vars t ts (nextBit sched).2 s x ih
    | true =>
      rw [ite_cond_true]
      rw [completed_mem_step exch vars t ts (nextBit sched).2 (flushState s) x ih,
        flushState_idem]

theorem dispatchedNames_subset (tasks : List Task) (ds : List Disp) (x : String)
    (h : x ∈ dispatchedNames tasks ds) : x ∈ tasks.map Task.name := by
  rw [dispatchedNames, List.mem_filterMap] at h
  obtain ⟨⟨t, d⟩, hmem, hx⟩ := h
  have ht : t ∈ tasks := (List.of_mem_zip hmem).1
  cases d with
  | skip => cases hx
  | seq ok =>
    simp at hx
    exact List.mem_map.2 ⟨t, ht, hx⟩
  | par ok =>
    simp at hx
    exact List.mem_map.2 ⟨t, ht, hx⟩

theorem not_flush_mem {s : RunState} {x : String}
    (h : x ∉ (flushState s).completed) :
    x ∉ s.completed ∧ x ∉ pendingNames s.pending := by
  constructor
  · intro hc; exact h ((flushState_completed_mem s x).2 (Or.inl hc))
  · intro hc; exact h ((flushState_completed_mem s x).2 (Or.inr hc))

theorem gatePass_false_of_unmet {completedL : List String} {t : Task} {req : String}
    (hr : req ∈ t.required) (hnc : req ∉ completedL) :
    gatePass completedL t = false := by
  rw [gatePass]
  have hlen : t.required.length > 0 := List.length_pos.2 (List.ne_nil_of_mem hr)
  rw [if_pos hlen]
  cases hall : t.required.all (fun r => completedL.contains r) with
  | false => rfl
  | true =>
    exfalso
    exact hnc ((contains_iff_mem completedL req).1 (List.all_eq_true.1 hall req hr))

theorem gatePass_true_of_met {completedL : List String} {t : Task}
    (h : ∀ req ∈ t.required, req ∈ completedL) : gatePass completedL t = true := by
  rw [gatePass]
  by_cases hlen : t.required.length > 0
  · rw [if_pos hlen, List.all_eq_true]
    intro req hr
    exact (contains_iff_mem completedL req).2 (h req hr)
  · rw [if_neg hlen]

theorem gatePass_empty_required {t : Task} (h : t.required = [])
    (completedL : List String) : gatePass completedL t = true := by
  rw [gatePass, h]
  simp

theorem doomed_weaken {S : List String} {t : Task} {ts : List Task} {s : RunState}
    (h : Doomed S (t :: ts) s) : Doomed S ts s := by
  intro x hx
  obtain ⟨h1, h2, h3⟩ := h x hx
  exact ⟨h1, h2, fun u hu => h3 u (List.mem_cons_of_mem _ hu)⟩

theorem doomed_flush {S : List String} {ts : List Task} {s : RunState}
    (h : Doomed S ts s) : Doomed S ts (flushState s) := by
  intro x hx
  obtain ⟨h1, h2, h3⟩ := h x hx
  refine ⟨?_, ?_, h3⟩
  · intro hc
    rcases (flushState_completed_mem s x).1 hc with hc1 | hc2
    · exact h1 hc1
    · exact h2 hc2
  · rw [flushState_pending]
    simp [pendingNames]

theorem doomed_gate_false {S : List String} {t : Task} {ts : List Task} {s1 : RunState}
    (hd : Doomed S (t :: ts) s1) (hx : t.name ∈ S) :
    gatePass s1.completed t = false := by
  obtain ⟨_, _, h3⟩ := hd t.name hx
  obtain ⟨req, hreq, hreqS⟩ := h3 t (List.mem_cons_self t ts) rfl
  exact gatePass_false_of_unmet hreq (hd req hreqS).1

theorem doomed_step (exch : List Char → Bool) (vars : List (String × String))
    {S : List String} {t : Task} {ts : List Task} {s1 : RunState}
    (hd : Doomed S (t :: ts) s1) : Doomed S ts (stepTask exch vars t s1).1 := by
  cases hg : gatePass s1.completed t with
  | false =>
    rw [stepTask_eq_skip hg]
    exact doomed_weaken hd
  | true =>
    have hts : t.name ∉ S := by
      intro hx
      rw [doomed_gate_false hd hx] at hg
      cases hg
    cases hp : t.parallel with
    | false =>
      rw [stepTask_eq_seq hg hp]
      intro x hx
      obtain ⟨h1, h2, h3⟩ := hd x hx
      refine ⟨?_, h2, fun u hu => h3 u (List.mem_cons_of_mem _ hu)⟩
      intro hc
      rcases List.mem_cons.1 hc with hc1 | hc2
      · exact hts (hc1 ▸ hx)
      · exact h1 hc2
    | true =>
      rw [stepTask_eq_par hg hp]
      intro x hx
      obtain ⟨h1, h2, h3⟩ := hd x hx
      refine ⟨?_, ?_, fun u hu => h3 u (List.mem_cons_of_mem _ hu)⟩
      · intro hc
        rcases (flushState_completed_mem s1 x).1 hc with hc1 | hc2
        · exact h1 hc1
        · exact h2 hc2
      · intro hc
        simp [pendingNames] at hc
        exact hts (hc ▸ hx)

theorem doomed_run_not_completed (exch : List Char → Bool)
    (vars : List (String × String)) :
    ∀ (ts : List Task) (sched : List Bool) (s : RunState) (S : List String),
      Doomed S ts s → ∀ x ∈ S,
        x ∉ (flushState (runLoop exch vars ts sched s).state).completed := by
  intro ts
  induction ts with
  | nil =>
    intro sched s S hd x hx
    rw [runLoop_nil]
    obtain ⟨h1, h2, _⟩ := hd x hx
    intro hc
    rcases (flushState_completed_mem s x).1 hc with hc1 | hc2
    · exact h1 hc1
    · exact h2 hc2
  | cons t ts ih =>
    intro sched s S hd x hx
    rw [runLoop_cons]
    cases hbit : (nextBit sched).1 with
    | false =>
      rw [ite_cond_false]
      exact ih (nextBit sched).2 _ S (doomed_step exch vars hd) x hx
    | true =>
      rw [ite_cond_true]
      exact ih (nextBit sched).2 _ S (doomed_step exch vars (doomed_flush hd)) x hx

theorem doomed_run_disp_skip (exch : List Char → Bool)
    (vars : List (String × String)) :
    ∀ (ts : List Task) (sched : List Bool) (s : RunState) (S : List String),
      Doomed S ts s → ∀ (i : Nat) (hi : i < ts.length), (ts.get ⟨i, hi⟩).name ∈ S →
        (runLoop exch vars ts sched s).disps.get? i = some Disp.skip := by
  intro ts
  induction ts with
  | nil =>
    intro _ _ _ _ i hi
    exact absurd hi (by simp)
  | cons t ts ih =>
    intro sched s S hd i hi hname
    rw [runLoop_cons]
    cases hbit : (nextBit sched).1 with
    | false =>
      rw [ite_cond_false]
      cases i with
      | zero =>
        have hts : t.name ∈ S := by simpa using hname
        rw [stepTask_eq_skip (doomed_gate_false hd hts)]
        rfl
      | succ i =>
        have hi' : i < ts.length := by simpa using hi
        have hname' : (ts.get ⟨i, hi'⟩).name ∈ S := by simpa using hname
        rw [List.get?_cons_succ]
        exact ih (nextBit sched).2 _ S (doomed_step exch vars hd) i hi' hname'
    | true =>
      rw [ite_cond_true]
      cases i with
      | zero =>
        have hts : t.name ∈ S := by simpa using hname
        rw [stepTask_eq_skip (doomed_gate_false (doomed_flush hd) hts)]
        rfl
      | succ i =>
        have hi' : i < ts.length := by simpa using hi
        have hname' : (ts.get ⟨i, hi'⟩).name ∈ S := by simpa using hname
        rw [List.get?_cons_succ]
        exact ih (nextBit sched).2 _ S (doomed_step exch vars (doomed_flush hd)) i hi'
          hname'

/-! ### Trace alternation lemmas for the capacity-1 slot -/

theorem altOK_nil (p : Option String) : altOK p [] = true := rfl

theorem altOK_skip_cons (p : Option String) (n : String) (rest : List Event) :
    altOK p (Event.skip n :: rest) = altOK p rest := rfl

theorem altOK_runSeq_cons (p : Option String) (n : String) (ok : Bool)
    (rest : List Event) : altOK p (Event.runSeq n ok :: rest) = altOK p rest := rfl

theorem altOK_parStart_none (n : String) (rest : List Event) :
    altOK none (Event.parStart n :: rest) = altOK (some n) rest := rfl

theorem altOK_parStart_some (m n : String) (rest : List Event) :
    altOK (some m) (Event.parStart n :: rest) = false := rfl

theorem altOK_parEnd_some (m n : String) (ok : Bool) (rest : List Event) :
    altOK (some m) (Event.parEnd n ok :: rest) = ((m == n) && altOK none rest) := rfl

theorem altOK_parEnd_none (n : String) (ok : Bool) (rest : List Event) :
    altOK none (Event.parEnd n ok :: rest) = false := rfl

theorem altOK_flushTrace_append (s : RunState) (l : List Event) :
    altOK (pName s.pending) (flushTrace s ++ l) = altOK none l := by
  obtain ⟨c, e, p⟩ := s
  cases p with
  | none => rfl
  | some nk =>
    obtain ⟨n, ok⟩ := nk
    show altOK (some n) (Event.parEnd n ok :: l) = altOK none l
    rw [altOK_parEnd_some, beq_self_eq_true, Bool.true_and]

theorem altOK_step (exch : List Char → Bool) (vars : List (String × String))
    (t : Task) (ts : List Task) (sched' : List Bool) (s1 : RunState)
    (ih : ∀ (sched : List Bool) (s : RunState),
      altOK (pName s.pending) ((runLoop exch vars ts sched s).trace ++
        flushTrace (runLoop exch vars ts sched s).state) = true) :
    altOK (pName s1.pending)
      ((stepTask exch vars t s1).2.2 ++
        ((runLoop exch vars ts sched' (stepTask exch vars t s1).1).trace ++
          flushTrace (runLoop exch vars ts sched' (stepTask exch vars t s1).1).state)) =
      true := by
  cases hg : gatePass s1.completed t with
  | false =>
    rw [stepTask_eq_skip hg]
    rw [List.cons_append, List.nil_append, altOK_skip_cons]
    exact ih sched' s1
  | true =>
    cases hp : t.parallel with
    | false =>
      rw [stepTask_eq_seq hg hp]
      rw [List.cons_append, List.nil_append, altOK_runSeq_cons]
      exact ih sched' ⟨t.name :: s1.completed,
        s1.errOcc || !(runTask exch t.name t.cmds t.silent vars).2, s1.pending⟩
    | true =>
      rw [stepTask_eq_par hg hp]
      rw [List.append_assoc, altOK_flushTrace_append, List.cons_append, List.nil_append,
        altOK_parStart_none]
      exact ih sched' ⟨(flushState s1).completed, (flushState s1).errOcc,
        some (t.name, (runTask exch t.name t.cmds t.silent vars).2)⟩

theorem altOK_runLoop (exch : List Char → Bool) (vars : List (String × String)) :
    ∀ (ts : List Task) (sched : List Bool) (s : RunState),
      altOK (pName s.pending) ((runLoop exch vars ts sched s).trace ++
        flushTrace (runLoop exch vars ts sched s).state) = true := by
  intro ts
  induction ts with
  | nil =>
    intro sched s
    rw [runLoop_nil]
    simpa using altOK_flushTrace_append s []
  | cons t ts ih =>
    intro sched s
    rw [runLoop_cons]
    dsimp only
    cases hbit : (nextBit sched).1 with
    | false =>
      rw [ite_cond_false]
      rw [List.nil_append, List.append_assoc]
      exact altOK_step exch vars t ts (nextBit sched).2 s ih
    | true =>
      rw [ite_cond_true]
      rw [List.append_assoc, List.append_assoc, altOK_flushTrace_append]
      have h := altOK_step exch vars t ts (nextBit sched).2 (flushState s) ih
      rwa [flushState_pending] at h

theorem altOK_runAllTasks (exch : List Char → Bool) (vars : List (String × String))
    (tasks : List Task) (sched : List Bool) :
    altOK none (runAllTasks exch vars tasks sched).trace = true := by
  have h := altOK_runLoop exch vars tasks sched ⟨[], false, none⟩
  simpa [runAllTasks, pName] using h

theorem altOK_between (a : String) : ∀ (l2 l3 : List Event) (b : String),
    altOK (some a) (l2 ++ (Event.parStart b :: l3)) = true →
      ∃ l2a ok l2b, l2 = l2a ++ Event.parEnd a ok :: l2b := by
  intro l2
  induction l2 with
  | nil =>
    intro l3 b h
    rw [List.nil_append, altOK_parStart_some] at h
    cases h
  | cons e l2 ih =>
    intro l3 b h
    rw [List.cons_append] at h
    cases e with
    | skip n =>
      rw [altOK_skip_cons] at h
      obtain ⟨l2a, ok, l2b, he⟩ := ih l3 b h
      exact ⟨Event.skip n :: l2a, ok, l2b, by rw [he, List.cons_append]⟩
    | runSeq n ok0 =>
      rw [altOK_runSeq_cons] at h
      obtain ⟨l2a, ok, l2b, he⟩ := ih l3 b h
      exact ⟨Event.runSeq n ok0 :: l2a, ok, l2b, by rw [he, List.cons_append]⟩
    | parStart n =>
      rw [altOK_parStart_some] at h
      cases h
    | parEnd n ok0 =>
      rw [altOK_parEnd_some, Bool.and_eq_true] at h
      have h2 : n = a := (eq_of_beq h.1).symm
      subst h2
      exact ⟨[], ok0, l2, rfl⟩

theorem altOK_two_starts : ∀ (l1 : List Event) (p : Option String) (a b : String)
    (l2 l3 : List Event),
    altOK p (l1 ++ (Event.parStart a :: (l2 ++ (Event.parStart b :: l3)))) = true →
      ∃ l2a ok l2b, l2 = l2a ++ Event.parEnd a ok :: l2b := by
  intro l1
  induction l1 with
  | nil =>
    intro p a b l2 l3 h
    rw [List.nil_append] at h
    cases p with
    | none =>
      rw [altOK_parStart_none] at h
      exact altOK_between a l2 l3 b h
    | some m =>
      rw [altOK_parStart_some] at h
      cases h
  | cons e l1 ih =>
    intro p a b l2 l3 h
    rw [List.cons_append] at h
    cases e with
    | skip n => exact ih p a b l2 l3 (by rwa [altOK_skip_cons] at h)
    | runSeq n ok => exact ih p a b l2 l3 (by rwa [altOK_runSeq_cons] at h)
    | parStart n =>
      cases p with
      | none => exact ih (some n) a b l2 l3 (by rwa [altOK_parStart_none] at h)
      | some m =>
        rw [altOK_parStart_some] at h
        cases h
    | parEnd n ok =>
      cases p with
      | some m =>
        rw [altOK_parEnd_some, Bool.and_eq_true] at h
        exact ih none a b l2 l3 h.2
      | none =>
        rw [altOK_parEnd_none] at h
        cases h

/-! ### Projection lemmas for `runAllTasks` and step helpers -/

theorem runAllTasks_exitCode (exch : List Char → Bool) (vars : List (String × String))
    (tasks : List Task) (sched : List Bool) :
    (runAllTasks exch vars tasks sched).exitCode =
      (if (runAllTasks exch vars tasks sched).errOcc then 1 else 0) := rfl

theorem runAllTasks_errOcc (exch : List Char → Bool) (vars : List (String × String))
    (tasks : List Task) (sched : List Bool) :
    (runAllTasks exch vars tasks sched).errOcc =
      (flushState (runLoop exch vars tasks sched ⟨[], false, none⟩).state).errOcc := rfl

theorem runAllTasks_completed (exch : List Char → Bool) (vars : List (String × String))
    (tasks : List Task) (sched : List Bool) :
    (runAllTasks exch vars tasks sched).completed =
      (flushState (runLoop exch vars tasks sched ⟨[], false, none⟩).state).completed := rfl

theorem runAllTasks_disps (exch : List Char → Bool) (vars : List (String × String))
    (tasks : List Task) (sched : List Bool) :
    (runAllTasks exch vars tasks sched).disps =
      (runLoop exch vars tasks sched ⟨[], false, none⟩).disps := rfl

theorem runAllTasks_trace (exch : List Char → Bool) (vars : List (String × String))
    (tasks : List Task) (sched : List Bool) :
    (runAllTasks exch vars tasks sched).trace =
      (runLoop exch vars tasks sched ⟨[], false, none⟩).trace ++
        flushTrace (runLoop exch vars tasks sched ⟨[], false, none⟩).state := rfl

theorem stepTask_disp_skip_iff (exch : List Char → Bool) (vars : List (String × String))
    (t : Task) (s1 : RunState) :
    ((stepTask exch vars t s1).2.1 = Disp.skip ↔ gatePass s1.completed t = false) := by
  cases hg : gatePass s1.completed t with
  | false => rw [stepTask_eq_skip hg]; simp
  | true =>
    cases hp : t.parallel with
    | false => rw [stepTask_eq_seq hg hp]; simp
    | true => rw [stepTask_eq_par hg hp]; simp

theorem runTask_eq (exch : List Char → Bool) (tn : String) (cmds : List String)
    (silent : Bool) (vars : List (String × String)) :
    runTask exch tn cmds silent vars = runCmdSeq exch silent vars cmds := rfl

theorem runCmdSeq_nil (exch : List Char → Bool) (silent : Bool)
    (vars : List (String × String)) : runCmdSeq exch silent vars [] = ([], true) := rfl

theorem runCmdSeq_cons_true {exch : List Char → Bool} {silent : Bool}
    {vars : List (String × String)} {cmd : String} (rest : List String)
    (h : executeCommand exch cmd silent vars = true) :
    runCmdSeq exch silent vars (cmd :: rest) =
      (cmd :: (runCmdSeq exch silent vars rest).1, (runCmdSeq exch silent vars rest).2) := by
  rw [runCmdSeq, h, ite_cond_true]

theorem runCmdSeq_cons_false {exch : List Char → Bool} {silent : Bool}
    {vars : List (String × String)} {cmd : String} (rest : List String)
    (h : executeCommand exch cmd silent vars = false) :
    runCmdSeq exch silent vars (cmd :: rest) = ([cmd], false) := by
  rw [runCmdSeq, h, ite_cond_false]

theorem get?_append_big {α : Type u_1} (l₁ l₂ : List α) (n : Nat) (h : l₁.length ≤ n) :
    (l₁ ++ l₂).get? n = l₂.get? (n - l₁.length) := by
  rw [List.get?_eq_getElem?, List.get?_eq_getElem?, List.getElem?_append_right h]

theorem nodup_map_name_inj {l : List Task} (hnd : (l.map Task.name).Nodup)
    {u v : Task} (hu : u ∈ l) (hv : v ∈ l) (h : u.name = v.name) : u = v :=
  List.inj_on_of_nodup_map hnd hu hv h

theorem claim_C5_core (exch : List Char → Bool) (vars : List (String × String))
    (sched' : List Bool) (t : Task) (rest : List Task) (req : String) (s1 : RunState)
    (preNames : List String)
    (hcmp : ∀ x, x ∈ s1.completed → x ∈ preNames)
    (hpnd : ∀ x, x ∈ pendingNames s1.pending → x ∈ preNames)
    (hr : req ∈ t.required) (hnp : req ∉ preNames)
    (htpre : t.name ∉ preNames) (htrest : t.name ∉ rest.map Task.name)
    (hrestpre : ∀ x ∈ rest.map Task.name, x ∉ preNames)
    (hndrest : (rest.map Task.name).Nodup) :
    (stepTask exch vars t s1).2.1 = Disp.skip
    ∧ (stepTask exch vars t s1).1 = s1
    ∧ (∀ x ∈ t.name :: (rest.filter fun u => u.required.contains t.name).map Task.name,
        x ∉ (flushState (runLoop exch vars rest sched' s1).state).completed)
    ∧ ∀ (j : Nat) (hj : j < rest.length), t.name ∈ (rest.get ⟨j, hj⟩).required →
        (runLoop exch vars rest sched' s1).disps.get? j = some Disp.skip := by
  have hg : gatePass s1.completed t = false :=
    gatePass_false_of_unmet hr (fun hc => hnp (hcmp _ hc))
  have hdoom : Doomed
      (t.name :: (rest.filter fun u => u.required.contains t.name).map Task.name)
      rest s1 := by
    intro x hx
    have hxnames : x = t.name ∨ x ∈ rest.map Task.name := by
      rcases List.mem_cons.1 hx with h | h
      · exact Or.inl h
      · obtain ⟨u, hu, rfl⟩ := List.mem_map.1 h
        exact Or.inr (List.mem_map.2 ⟨u, List.mem_of_mem_filter hu, rfl⟩)
    have hxpre : x ∉ preNames := by
      rcases hxnames with rfl | h
      · exact htpre
      · exact hrestpre x h
    refine ⟨fun hc => hxpre (hcmp x hc), fun hc => hxpre (hpnd x hc), ?_⟩
    intro u hu hux
    rcases List.mem_cons.1 hx with hxt | hxm
    · exfalso
      exact htrest (List.mem_map.2 ⟨u, hu, by rw [hux, hxt]⟩)
    · obtain ⟨u0, hu0f, hu0n⟩ := List.mem_map.1 hxm
      have hu0r : u0 ∈ rest := (List.mem_filter.1 hu0f).1
      have huu0 : u = u0 := nodup_map_name_inj hndrest hu hu0r (hux.trans hu0n.symm)
      refine ⟨t.name, ?_, List.mem_cons_self _ _⟩
      rw [huu0]
      exact (contains_iff_mem _ _).1 (List.mem_filter.1 hu0f).2
  refine ⟨by rw [stepTask_eq_skip hg], by rw [stepTask_eq_skip hg], ?_, ?_⟩
  · exact fun x hx => doomed_run_not_completed exch vars rest sched' s1 _ hdoom x hx
  · intro j hj hdep
    apply doomed_run_disp_skip exch vars rest sched' s1 _ hdoom j hj
    apply List.mem_cons_of_mem
    apply List.mem_map.2
    refine ⟨rest.get ⟨j, hj⟩, ?_, rfl⟩
    apply List.mem_filter.2
    exact ⟨List.get_mem rest j hj, (contains_iff_mem _ _).2 hdep⟩

/-! ### Claim theorems -/

/-- Claim C1: the process exits with status 0 if and only if no task reached
Completed-Failure: over every oracle, variable map, workflow and schedule,
the exit code is 0 exactly when no dispatched task's command sequence
failed, and it is 1 exactly when some dispatched task's command sequence
failed (skipped tasks never contribute). -/
theorem claim_C1 (exch : List Char → Bool) (vars : List (String × String))
    (tasks : List Task) (sched : List Bool) :
    ((runAllTasks exch vars tasks sched).exitCode = 0 ↔
      dispsFail (runAllTasks exch vars tasks sched).disps = false)
    ∧ ((runAllTasks exch vars tasks sched).exitCode = 1 ↔
      dispsFail (runAllTasks exch vars tasks sched).disps = true) := by
  have herr : (runAllTasks exch vars tasks sched).errOcc =
      dispsFail (runAllTasks exch vars tasks sched).disps := by
    rw [runAllTasks_errOcc, runAllTasks_disps,
      runLoop_errOcc exch vars tasks sched ⟨[], false, none⟩]
    simp [flushState]
  rw [runAllTasks_exitCode, herr]
  cases dispsFail (runAllTasks exch vars tasks sched).disps <;> simp

/-- Claim C2: every task that runs (sequential or parallel) has its
CompletionRecord entry set when its command sequence ends, success or
failure — every dispatched task's name is in the final completion record —
and the dependency gate passes for any task all of whose required names
are in the record, regardless of how those tasks fared. -/
theorem claim_C2 (exch : List Char → Bool) (vars : List (String × String))
    (tasks : List Task) (sched : List Bool) :
    (∀ n : String, n ∈ dispatchedNames tasks (runAllTasks exch vars tasks sched).disps →
        n ∈ (runAllTasks exch vars tasks sched).completed)
    ∧ ∀ (completedL : List String) (t : Task),
        (t.required.all fun req => completedL.contains req) = true →
        gatePass completedL t = true := by
  constructor
  · intro n hn
    rw [runAllTasks_completed]
    rw [runAllTasks_disps] at hn
    exact (runLoop_completed_mem exch vars n tasks sched ⟨[], false, none⟩).2 (Or.inr hn)
  · intro completedL t hall
    rw [gatePass]
    by_cases hlen : t.required.length > 0
    · rw [if_pos hlen]; exact hall
    · rw [if_neg hlen]

/-- Witness for C2 on the spec's end-to-end example `A; B requires A;
C requires B`: the failed task `B` is in the completion record, and the
gate lets `C` run from a record containing only `B`. -/
theorem claim_C2_witness :
    "B" ∈ (runAllTasks execSample [] [taskA, taskB, taskC] []).completed ∧
      gatePass ["B"] taskC = true :=
  ⟨(claim_C2 execSample [] [taskA, taskB, taskC] []).1 "B" (by decide),
    (claim_C2 execSample [] [taskA, taskB, taskC] []).2 ["B"] taskC (by decide)⟩

/-- Claim C3: command execution inside one task is fail-fast: if the
commands before `c` all succeed and `c` fails, exactly the prefix plus `c`
is executed, nothing after `c` runs, and the task reports failure; if all
commands succeed, all of them run in order and the task reports success. -/
theorem claim_C3 (exch : List Char → Bool) (vars : List (String × String))
    (silent : Bool) (tn : String) :
    (∀ (cs : List String) (c : String) (rest : List String),
        cs.all (fun cmd => executeCommand exch cmd silent vars) = true →
        executeCommand exch c silent vars = false →
        runTask exch tn (cs ++ c :: rest) silent vars = (cs ++ [c], false))
    ∧ ∀ cmds : List String,
        cmds.all (fun cmd => executeCommand exch cmd silent vars) = true →
        runTask exch tn cmds silent vars = (cmds, true) := by
  constructor
  · intro cs
    induction cs with
    | nil =>
      intro c rest _ hc
      rw [runTask_eq, List.nil_append, runCmdSeq_cons_false rest hc, List.nil_append]
    | cons c0 cs ih =>
      intro c rest hall hc
      rw [List.all_cons, Bool.and_eq_true] at hall
      have hrec := ih c rest hall.2 hc
      rw [runTask_eq] at hrec ⊢
      rw [List.cons_append, runCmdSeq_cons_true (cs ++ c :: rest) hall.1, hrec,
        List.cons_append]
  · intro cmds
    induction cmds with
    | nil => intro _; rw [runTask_eq, runCmdSeq_nil]
    | cons c0 cs ih =>
      intro hall
      rw [List.all_cons, Bool.and_eq_true] at hall
      have hrec := ih hall.2
      rw [runTask_eq] at hrec ⊢
      rw [runCmdSeq_cons_true cs hall.1, hrec]

/-- Witness for C3: with the sample oracle, `[true, false, echo hi]` stops
after `false` and fails, while `[true]` runs fully and succeeds. -/
theorem claim_C3_witness :
    runTask execSample "B" (["true"] ++ "false" :: ["echo hi"]) false [] =
        (["true"] ++ ["false"], false) ∧
      runTask execSample "A" ["true"] false [] = (["true"], true) :=
  ⟨(claim_C3 execSample [] false "B").1 ["true"] "false" ["echo hi"]
      (by decide) (by decide),
    (claim_C3 execSample [] false "A").2 ["true"] (by decide)⟩

/-- Claim C6: a task with an empty required set always passes the
dependency gate, whatever the completion record holds, and in every run it
is dispatched (its decision at its declaration position is never a skip). -/
theorem claim_C6 (exch : List Char → Bool) (vars : List (String × String))
    (sched : List Bool) (pre rest : List Task) (t : Task)
    (hreq : t.required = []) :
    (∀ completedL : List String, gatePass completedL t = true)
    ∧ ∃ d, (runAllTasks exch vars (pre ++ t :: rest) sched).disps.get? pre.length =
          some d
        ∧ d ≠ Disp.skip := by
  refine ⟨fun completedL => gatePass_empty_required hreq completedL, ?_⟩
  rw [runAllTasks_disps, runLoop_append]
  dsimp only
  rw [runLoop_cons]
  dsimp only
  have hlen1 : (runLoop exch vars pre sched ⟨[], false, none⟩).disps.length =
      pre.length := runLoop_disps_length exch vars pre sched _
  rw [get?_append_big _ _ _ (le_of_eq hlen1), hlen1, Nat.sub_self, List.get?_cons_zero]
  refine ⟨_, rfl, ?_⟩
  rw [Ne, stepTask_disp_skip_iff, gatePass_empty_required hreq]
  simp

/-- Witness for C6: the dependency-free task `A` passes the gate on an
arbitrary record and is dispatched in a concrete run. -/
theorem claim_C6_witness :
    gatePass ["X"] taskA = true ∧
      ∃ d, (runAllTasks execSample [] ([] ++ taskA :: []) []).disps.get?
          (List.length ([] : List Task)) = some d ∧ d ≠ Disp.skip :=
  ⟨(claim_C6 execSample [] [] [] [] taskA rfl).1 ["X"],
    (claim_C6 execSample [] [] [] [] taskA rfl).2⟩

/-- Claim C9: when the `-w` flag is absent (empty workflow path), the
process prints the usage line and exits with status 0 for every
combination of remaining arguments, oracle, schedule and file contents,
and no task is ever dispatched. -/
theorem claim_C9 (exch : List Char → Bool) (sched : List Bool) (args : List String)
    (readFile : String → Option (Option Config)) :
    mainModel exch sched "" args readFile = (0, []) := by
  rw [mainModel]
  cases parseArgs
      (match readFile "" with
        | some (some cfg) => cfg.vars
        | _ => []) args with
  | none => rfl
  | some v => rfl

/-- Claim C7: a task failure never ends the pass early: in every run the
loop records exactly one dispatch decision per declared task, and the
decision for any declared task is a skip precisely when its dependency
gate evaluates to false at its turn — so every declared task is evaluated,
and only an unmet required set withholds its dispatch. -/
theorem claim_C7 (exch : List Char → Bool) (vars : List (String × String))
    (sched : List Bool) (pre rest : List Task) (t : Task) :
    (runAllTasks exch vars (pre ++ t :: rest) sched).disps.length =
        (pre ++ t :: rest).length
    ∧ ((runAllTasks exch vars (pre ++ t :: rest) sched).disps.get? pre.length =
          some Disp.skip ↔
        gatePass (evalStateAfter exch vars pre sched).completed t = false) := by
  constructor
  · rw [runAllTasks_disps]
    exact runLoop_disps_length exch vars _ sched _
  · rw [runAllTasks_disps, runLoop_append]
    dsimp only
    rw [runLoop_cons]
    dsimp only
    have hlen1 : (runLoop exch vars pre sched ⟨[], false, none⟩).disps.length =
        pre.length := runLoop_disps_length exch vars pre sched _
    rw [get?_append_big _ _ _ (le_of_eq hlen1), hlen1, Nat.sub_self,
      List.get?_cons_zero]
    rw [Option.some_inj]
    exact stepTask_disp_skip_iff exch vars t (evalStateAfter exch vars pre sched)

/-- Claim C8: with the capacity-1 slot, the execution intervals of two
parallel tasks never overlap: in every run trace, between the start events
of any two parallel dispatches stands the end event of the first, so the
second task's commands begin only after the first task's whole command
sequence has finished and released the slot. -/
theorem claim_C8 (exch : List Char → Bool) (vars : List (String × String))
    (tasks : List Task) (sched : List Bool) (l1 l2 l3 : List Event) (a b : String)
    (h : (runAllTasks exch vars tasks sched).trace =
      l1 ++ (Event.parStart a :: (l2 ++ (Event.parStart b :: l3)))) :
    ∃ l2a ok l2b, l2 = l2a ++ Event.parEnd a ok :: l2b := by
  have halt := altOK_runAllTasks exch vars tasks sched
  rw [h] at halt
  exact altOK_two_starts l1 none a b l2 l3 halt

/-- Witness for C8: in a concrete run of two parallel tasks `P` then `Q`,
the segment between the two start events contains `P`'s end event. -/
theorem claim_C8_witness :
    ∃ l2a ok l2b, [Event.parEnd "P" true] = l2a ++ Event.parEnd "P" ok :: l2b :=
  claim_C8 execSample [] [taskP, taskQ] [] [] [Event.parEnd "P" true]
    [Event.parEnd "Q" true] "P" "Q" (by decide)

/-- Counterexample for C4 as stated: in the merged environment
`[A\x7d\x7d\x7b\x7bB ↦ x, A ↦ 1, B ↦ 2]` (no overrides needed beyond
these), the command `\x7b\x7bA\x7d\x7d\x7b\x7bB\x7d\x7d` contains the
token of `A` and `A` is bound to `1`, yet the rendered command is `x`:
the token is neither replaced by the value of `A` nor left verbatim,
because the adversarial variable name's token overlaps it. -/
theorem claim_C4_counterexample :
    (mergeDefaults envFirst []).lookup "A" = some "1" ∧
    hasSubstr (tokenOf "A".data) braceInput = true ∧
    replacePlaceholders braceInput (mergeDefaults envFirst []) = "x".data ∧
    hasSubstr "1".data (replacePlaceholders braceInput (mergeDefaults envFirst [])) =
      false ∧
    replacePlaceholders braceInput (mergeDefaults envFirst []) ≠ braceInput := by
  decide

/-- Claim C4 (amended): provided every variable name and value in the
overrides and defaults is brace-free, for every brace-free name `X` and
every command of the form `pre ++ \x7b\x7bX\x7d\x7d ++ suf` with
brace-free `pre` and `suf`, the token is replaced by the CLI override
value of `X` when one is given, else by the workflow default for `X`,
else it stays verbatim and no error occurs. -/
theorem claim_C4 (overrides defaults : List (String × String)) (X : String)
    (pre suf : List Char) (hpre : braceFree pre = true) (hsuf : braceFree suf = true)
    (hX : braceFree X.data = true) (ho : wfEnv overrides = true)
    (hd : wfEnv defaults = true) :
    replacePlaceholders (pre ++ (tokenOf X.data ++ suf))
        (mergeDefaults overrides defaults) =
      pre ++ ((match overrides.lookup X with
               | some v => v.data
               | none =>
                 match defaults.lookup X with
                 | some v => v.data
                 | none => tokenOf X.data) ++ suf) := by
  rw [replacePlaceholders_token (mergeDefaults overrides defaults) X pre suf hpre hsuf
    hX (wfEnv_mergeDefaults ho hd)]
  rw [lookup_mergeDefaults]
  cases overrides.lookup X with
  | some v => rfl
  | none => cases defaults.lookup X with
    | some v => rfl
    | none => rfl

/-- Witness for C4 (amended): the override `A=1` wins over the default
`A=2`, and an unknown token stays verbatim. -/
theorem claim_C4_witness :
    replacePlaceholders ("x".data ++ (tokenOf "A".data ++ "y".data))
        (mergeDefaults [("A", "1")] [("A", "2"), ("B", "3")]) =
      "x".data ++ ("1".data ++ "y".data) :=
  claim_C4 [("A", "1")] [("A", "2"), ("B", "3")] "A" "x".data "y".data
    (by decide) (by decide) (by decide) (by decide) (by decide)

/-- Counterexample for C10 as stated: the environment
`[A ↦ 1, B ↦ 2, A\x7d\x7d\x7b\x7bB ↦ x]` satisfies the claim's
precondition (no value contains any bound name's token), yet on the
command `\x7b\x7bA\x7d\x7d\x7b\x7bB\x7d\x7d` two application orders
of the same variables produce different outputs (`12` versus `x`). -/
theorem claim_C10_counterexample :
    noTokenInValues envLast = true ∧
    envFirst.Perm envLast ∧
    replacePlaceholders braceInput envLast ≠ replacePlaceholders braceInput envFirst := by
  refine ⟨by decide, ?_, by decide⟩
  refine List.Perm.trans (List.Perm.swap ("A", "1") (weirdKey, "x") [("B", "2")]) ?_
  exact List.Perm.cons ("A", "1") (List.Perm.swap ("B", "2") (weirdKey, "x") [])

/-- Claim C10 (amended): placeholder substitution is order-independent
under strengthened preconditions: when the environment's names are
pairwise distinct and names and values are brace-free (which implies the
claim's original precondition), and the command string decomposes into
brace-free literals and whole tokens, applying the per-variable
replacements in any two orders yields the same output string. -/
theorem claim_C10 (env env' : List (String × String)) (ps : List CmdPiece)
    (hperm : env.Perm env') (hnd : (env.map Prod.fst).Nodup)
    (henv : wfEnv env = true) (hps : wfPieces ps = true) :
    replacePlaceholders (renderPieces ps) env =
      replacePlaceholders (renderPieces ps) env' := by
  have henv' : wfEnv env' = true := by
    rw [wfEnv, List.all_eq_true] at henv ⊢
    intro kv hkv
    exact henv kv (hperm.mem_iff.2 hkv)
  rw [replacePlaceholders_renderPieces env ps henv hps,
    replacePlaceholders_renderPieces env' ps henv' hps]
  congr 1
  apply List.map_congr_left
  intro p _
  cases p with
  | lit s0 => rfl
  | var n =>
    show substPiece env (CmdPiece.var n) = substPiece env' (CmdPiece.var n)
    have hl := lookup_perm_eq hperm hnd n
    simp [substPiece, hl]

/-- Witness for C10 (amended): swapping two well-formed bindings does not
change the rendering of the token of `A`. -/
theorem claim_C10_witness :
    replacePlaceholders (renderPieces [CmdPiece.var "A"]) [("A", "1"), ("B", "2")] =
      replacePlaceholders (renderPieces [CmdPiece.var "A"]) [("B", "2"), ("A", "1")] :=
  claim_C10 [("A", "1"), ("B", "2")] [("B", "2"), ("A", "1")] [CmdPiece.var "A"]
    (List.Perm.swap ("B", "2") ("A", "1") []) (by decide) (by decide) (by decide)

/-- Claim C5: a skipped task is never marked in the CompletionRecord: a
task `t` whose required set names some `req` not declared earlier in the
sequence is always skipped, its entry is never set during the run (given
the conventional uniqueness of task names), and every later task that
requires `t`'s name is skipped as well and never marked — `t` permanently
blocks its dependents. -/
theorem claim_C5 (exch : List Char → Bool) (vars : List (String × String))
    (sched : List Bool) (pre : List Task) (t : Task) (rest : List Task) (req : String)
    (hn : ((pre ++ t :: rest).map Task.name).Nodup)
    (hr : req ∈ t.required) (hnp : req ∉ pre.map Task.name) :
    (runAllTasks exch vars (pre ++ t :: rest) sched).disps.get? pre.length =
        some Disp.skip
    ∧ t.name ∉ (runAllTasks exch vars (pre ++ t :: rest) sched).completed
    ∧ ∀ (j : Nat) (hj : j < rest.length), t.name ∈ (rest.get ⟨j, hj⟩).required →
        (runAllTasks exch vars (pre ++ t :: rest) sched).disps.get?
            (pre.length + 1 + j) = some Disp.skip
        ∧ (rest.get ⟨j, hj⟩).name ∉
            (runAllTasks exch vars (pre ++ t :: rest) sched).completed := by
  rw [List.map_append, List.map_cons, List.nodup_append] at hn
  obtain ⟨hnd_pre, hnd_tr, hdisj⟩ := hn
  rw [List.nodup_cons] at hnd_tr
  obtain ⟨htrest, hndrest⟩ := hnd_tr
  have htpre : t.name ∉ pre.map Task.name := fun hc => hdisj hc (List.mem_cons_self _ _)
  have hrestpre : ∀ x ∈ rest.map Task.name, x ∉ pre.map Task.name :=
    fun x hx hc => hdisj hc (List.mem_cons_of_mem _ hx)
  have hbound : ∀ x,
      x ∈ (flushState (runLoop exch vars pre sched ⟨[], false, none⟩).state).completed →
        x ∈ pre.map Task.name := by
    intro x hx
    rcases (runLoop_completed_mem exch vars x pre sched ⟨[], false, none⟩).1 hx with
      h0 | hdisp
    · simp [flushState] at h0
    · exact dispatchedNames_subset pre _ x hdisp
  rw [runAllTasks_disps, runAllTasks_completed, runLoop_append]
  dsimp only
  rw [runLoop_cons]
  dsimp only
  set s1 := (if (nextBit (runLoop exch vars pre sched ⟨[], false, none⟩).sched).1 then
      flushState (runLoop exch vars pre sched ⟨[], false, none⟩).state
    else (runLoop exch vars pre sched ⟨[], false, none⟩).state) with hs1
  have hcmp : ∀ x, x ∈ s1.completed → x ∈ pre.map Task.name := by
    rw [hs1]
    cases hbit : (nextBit (runLoop exch vars pre sched ⟨[], false, none⟩).sched).1 with
    | false =>
      rw [ite_cond_false]
      exact fun x hx => hbound x ((flushState_completed_mem _ x).2 (Or.inl hx))
    | true =>
      rw [ite_cond_true]
      exact fun x hx => hbound x hx
  have hpnd : ∀ x, x ∈ pendingNames s1.pending → x ∈ pre.map Task.name := by
    rw [hs1]
    cases hbit : (nextBit (runLoop exch vars pre sched ⟨[], false, none⟩).sched).1 with
    | false =>
      rw [ite_cond_false]
      exact fun x hx => hbound x ((flushState_completed_mem _ x).2 (Or.inr hx))
    | true =>
      rw [ite_cond_true, flushState_pending]
      intro x hx
      simp [pendingNames] at hx
  obtain ⟨hskip, hstate, hcomp, hdisps⟩ := claim_C5_core exch vars
    ((nextBit (runLoop exch vars pre sched ⟨[], false, none⟩).sched).2) t rest req s1
    (pre.map Task.name) hcmp hpnd hr hnp htpre htrest hrestpre hndrest
  rw [hstate]
  have hlen1 : (runLoop exch vars pre sched ⟨[], false, none⟩).disps.length =
      pre.length := runLoop_disps_length exch vars pre sched _
  refine ⟨?_, ?_, ?_⟩
  · rw [get?_append_big _ _ _ (le_of_eq hlen1), hlen1, Nat.sub_self,
      List.get?_cons_zero, hskip]
  · exact hcomp t.name (List.mem_cons_self _ _)
  · intro j hj hdep
    constructor
    · rw [get?_append_big _ _ _ (by rw [hlen1]; omega), hlen1]
      have hidx : pre.length + 1 + j - pre.length = j + 1 := by omega
      rw [hidx, List.get?_cons_succ]
      exact hdisps j hj hdep
    · apply hcomp
      apply List.mem_cons_of_mem
      apply List.mem_map.2
      exact ⟨rest.get ⟨j, hj⟩,
        List.mem_filter.2 ⟨List.get_mem rest j hj, (contains_iff_mem _ _).2 hdep⟩, rfl⟩

/-- Witness for C5: task `T` requires the never-declared name `Z`, so it
is skipped and never completed, and its dependent `D` is blocked. -/
theorem claim_C5_witness :
    (runAllTasks execSample [] ([] ++ taskT :: [taskD]) []).disps.get?
        (List.length ([] : List Task)) = some Disp.skip ∧
      taskT.name ∉ (runAllTasks execSample [] ([] ++ taskT :: [taskD]) []).completed ∧
      (runAllTasks execSample [] ([] ++ taskT :: [taskD]) []).disps.get?
        (List.length ([] : List Task) + 1 + 0) = some Disp.skip := by
  have h := claim_C5 execSample [] [] [] taskT [taskD] "Z" (by decide) (by decide)
    (by decide)
  exact ⟨h.1, h.2.1, (h.2.2 0 (by decide) (by decide)).1⟩

end Rayder